import Mathlib

/-!
Verification of the queue/list engine in `queue.c` (lab0-c).

The C code is shallowly embedded: element values (C strings) are NUL-free
byte lists, a queue handle is `Option (List Val)` (`none` = absent handle),
and each operation is translated into an executable Lean function following
the source line by line.  Loops whose termination depends on pointer-chain
invariants are given explicit fuel equal to a bound the source guarantees.
-/

namespace Lab0

/-- Element values: C strings as lists of (nonzero) byte values. -/
abbrev Val := List Nat

/-- C `strcmp` on NUL-terminated byte strings, modelled on NUL-free byte
lists (the terminating NUL compares below every nonzero byte, which is
exactly the shortlex behaviour of this definition). -/
def strcmp : Val → Val → Ordering
  | [], [] => .eq
  | [], _ :: _ => .lt
  | _ :: _, [] => .gt
  | a :: as, b :: bs =>
    if a < b then .lt else if b < a then .gt else strcmp as bs

/-- `strcmp a b <= 0`, the "not greater" test used by the merge. -/
def sle (a b : Val) : Prop := strcmp a b ≠ .gt

/-- `strcmp a b < 0`. -/
def slt (a b : Val) : Prop := strcmp a b = .lt

instance (a b : Val) : Decidable (sle a b) :=
  inferInstanceAs (Decidable (strcmp a b ≠ .gt))

instance (a b : Val) : Decidable (slt a b) :=
  inferInstanceAs (Decidable (strcmp a b = .lt))

/-- Values are non-decreasing along the list (ascending order by `strcmp`). -/
def sortedVals (l : List Val) : Prop := List.Chain' sle l

instance (l : List Val) : Decidable (sortedVals l) :=
  inferInstanceAs (Decidable (List.Chain' sle l))

/-! ### Insertion (`q_insert_head` / `q_insert_tail`)

The two `malloc`-class allocations (the element, then `strdup` of the text)
are driven by two oracle booleans.  The result records the boolean the C
function returns, the queue contents afterwards, and the number of
allocations made by the call that are neither owned by the queue nor freed
before returning (the leak count of the call). -/

/-- `q_insert_head` from queue.c: element allocation, `strdup`, `list_add`.
On the `err_str` path `e->value` is NULL (so only `e` itself is freed),
leaving zero leaked allocations. -/
def q_insert_head (allocElem allocStr : Bool) (q : Option (List Val)) (s : Val) :
    Bool × Option (List Val) × Nat :=
  match q with
  | none => (false, none, 0)
  | some l =>
    if !allocElem then
      (false, some l, 0)
    else if !allocStr then
      (false, some l, 1 - 1)
    else
      (true, some (s :: l), 2 - 2)

/-- `q_insert_tail` from queue.c: same failure structure, `list_add_tail`. -/
def q_insert_tail (allocElem allocStr : Bool) (q : Option (List Val)) (s : Val) :
    Bool × Option (List Val) × Nat :=
  match q with
  | none => (false, none, 0)
  | some l =>
    if !allocElem then
      (false, some l, 0)
    else if !allocStr then
      (false, some l, 1 - 1)
    else
      (true, some (l ++ [s]), 2 - 2)

/-! ### Removal (`q_remove_head` / `q_remove_tail`) -/

/-- `q_remove_head`: NULL on absent or empty queue, otherwise unlink the
first element and hand it to the caller together with the rest. -/
def q_remove_head (q : Option (List Val)) : Option (Val × List Val) :=
  match q with
  | none => none
  | some [] => none
  | some (x :: xs) => some (x, xs)

/-- `q_remove_tail`: NULL on absent or empty queue, otherwise unlink the
last element. -/
def q_remove_tail (q : Option (List Val)) : Option (Val × List Val) :=
  match q with
  | none => none
  | some [] => none
  | some (x :: xs) => some ((x :: xs).getLast (by simp), (x :: xs).dropLast)

/-- The `size_t` expression `bufsize - 1` used by both removal functions
for the `strncpy` length and for the terminator index `sp[bufsize - 1]`
(64-bit unsigned arithmetic, hence wrap-around at 0). -/
def bufsub1 (bufsize : Nat) : Nat := (bufsize + 2 ^ 64 - 1) % 2 ^ 64

/-- The bytes `strncpy(sp, src, n)` writes into `sp[0..n)`: the first
`min |src| n` bytes of `src`, then NUL padding up to `n` bytes. -/
def strncpyBytes (src : Val) (n : Nat) : List Nat :=
  src.take n ++ List.replicate (n - src.length) 0

/-- `q_remove_head` with a non-NULL inspection buffer: also reports the
bytes the `strncpy` writes and the index receiving the terminator. -/
def q_remove_head_buf (q : Option (List Val)) (bufsize : Nat) :
    Option (Val × List Val) × Option (List Nat × Nat) :=
  match q with
  | none => (none, none)
  | some [] => (none, none)
  | some (x :: xs) =>
    (some (x, xs), some (strncpyBytes x (bufsub1 bufsize), bufsub1 bufsize))

/-- `q_remove_tail` with a non-NULL inspection buffer. -/
def q_remove_tail_buf (q : Option (List Val)) (bufsize : Nat) :
    Option (Val × List Val) × Option (List Nat × Nat) :=
  match q with
  | none => (none, none)
  | some [] => (none, none)
  | some (x :: xs) =>
    (some ((x :: xs).getLast (by simp), (x :: xs).dropLast),
     some (strncpyBytes ((x :: xs).getLast (by simp)) (bufsub1 bufsize), bufsub1 bufsize))

/-! ### `q_delete_mid`

Two cursors walk inwards from both ends (`f` from `head->next`, `b` from
`head->prev`), one step each per iteration, until `f == b` or
`f == b->prev`; the node under `f` is deleted.  The cursors are modelled by
their zero-based indices; the loop has no exit condition of its own, so it
gets fuel (one unit per iteration, `length` is far more than enough). -/

/-- The index scan of `q_delete_mid`: `i` is the front cursor, `j` the back
cursor; stop when they meet (`f == b`) or are adjacent (`f == b->prev`). -/
def midScan : Nat → Nat → Nat → Nat
  | 0, i, _ => i
  | fuel + 1, i, j => if i = j ∨ i + 1 = j then i else midScan fuel (i + 1) (j - 1)

/-- `q_delete_mid`: false on absent or empty list, otherwise delete and
release the element the two-cursor scan stops on. -/
def q_delete_mid (q : Option (List Val)) : Bool × Option (List Val) :=
  match q with
  | none => (false, none)
  | some [] => (false, some [])
  | some l => (true, some (l.eraseIdx (midScan l.length 0 (l.length - 1))))

/-! ### `q_delete_dup`

The walk keeps a cursor `l` (value `b` below) and looks at its successor
`c`; equal neighbours delete `c` and set `del_cur`, otherwise the cursor
advances and a pending `del_cur` deletes the old `b`.  On loop exit a
pending `del_cur` deletes the final `b`. -/

/-- One-to-one translation of the `q_delete_dup` walk: first argument is
the element under the cursor, second the tail after it, third `del_cur`. -/
def dedupLoop : Val → List Val → Bool → List Val
  | b, [], del => if del then [] else [b]
  | b, c :: rest, del =>
    if strcmp b c = .eq then dedupLoop b rest true
    else if del then dedupLoop c rest false else b :: dedupLoop c rest false

/-- The survivors of the `q_delete_dup` walk on a value sequence (the walk
starts at `head->next` with `del_cur` false; an empty list never enters
the loop). -/
def dedupVals : List Val → List Val
  | [] => []
  | x :: xs => dedupLoop x xs false

/-- `q_delete_dup`: false on an absent handle, true otherwise, with the
surviving elements given by the walk. -/
def q_delete_dup (q : Option (List Val)) : Bool × Option (List Val) :=
  match q with
  | none => (false, none)
  | some [] => (true, some [])
  | some (x :: xs) => (true, some (dedupLoop x xs false))

/-! ### `q_swap` and `q_reverse` (value level) -/

/-- `q_swap`: each adjacent pair is exchanged, a trailing unpaired element
stays in place. -/
def q_swap : Option (List Val) → Option (List Val)
  | none => none
  | some l => some (swapPairs l)
where
  /-- The pairwise exchange on the value sequence. -/
  swapPairs : List Val → List Val
    | a :: b :: rest => b :: a :: swapPairs rest
    | l => l

/-- `q_reverse` at the value level: the pointer exchange inverts the
traversal order; absent and empty queues are untouched. -/
def q_reverse : Option (List Val) → Option (List Val)
  | none => none
  | some l => some l.reverse

/-! ### The merge sort engine (`mergeTwoLists`, `list_mergesort`, `q_sort`)

`list_mergesort` first cuts the circle into a NUL-terminated singly linked
chain; segments are lists of values, NULL is the empty list.  The slow/fast
split walks two cursors; its inner `while` extends `slow` to the end of a
run of equal values and then leaves the `for` loop early.  Both loops get
fuel (the segment length bounds their iteration counts). -/

/-- The inner `while` of the split scan: advance `slow` while its successor
exists and compares equal. -/
def extendRun (fuel : Nat) (seg : List Val) (slow : Nat) : Nat :=
  match fuel with
  | 0 => slow
  | fuel + 1 =>
    if slow + 1 < seg.length ∧ strcmp (seg.getD slow []) (seg.getD (slow + 1) []) = .eq then
      extendRun fuel seg (slow + 1)
    else slow

/-- The `for (fast = left->next; fast && fast->next; fast = fast->next->next)`
scan of `list_mergesort`: `slow` advances one index per iteration unless it
sits on an equal pair, in which case the run is skipped and the loop exits. -/
def scanSlow (fuel : Nat) (seg : List Val) (slow fast : Nat) : Nat :=
  match fuel with
  | 0 => slow
  | fuel + 1 =>
    if fast + 1 < seg.length then
      if strcmp (seg.getD slow []) (seg.getD (slow + 1) []) = .eq then
        extendRun seg.length seg slow
      else scanSlow fuel seg (slow + 1) (fast + 2)
    else slow

/-- The stack phase of `list_mergesort`: pop a segment, split it after
`slow`, push left then right; popping NULL moves the segment below it into
the ready-run array `lists`.  The stack discipline (left pushed below
right, right processed first, a NULL right sending its left straight to
`lists` unsplit) makes the run array equal to this recursion. -/
def msLeaves (fuel : Nat) (seg : List Val) : List (List Val) :=
  match fuel with
  | 0 => [seg]
  | fuel + 1 =>
    let m := scanSlow seg.length seg 0 1
    let r := seg.drop (m + 1)
    if r = [] then [seg.take (m + 1)]
    else msLeaves fuel r ++ msLeaves fuel (seg.take (m + 1))

/-- `mergeTwoLists` from queue.c: two-pointer merge, ties taken from the
first operand, the surviving remainder appended via the pointer-or trick. -/
def mergeTwoLists : List Val → List Val → List Val
  | [], l2 => l2
  | l1, [] => l1
  | a :: as, b :: bs =>
    if strcmp a b ≠ .gt then a :: mergeTwoLists as (b :: bs)
    else b :: mergeTwoLists (a :: as) bs

/-- One pass of the final merge loop: `lists[i] = merge(lists[i], lists[j])`
for `i` from the front and `j` from the back while `i < j`; the array then
shrinks to `(size + 1) / 2` entries. -/
def mergePass (ls : List (List Val)) : List (List Val) :=
  (List.range ((ls.length + 1) / 2)).map fun i =>
    if i < ls.length - 1 - i then mergeTwoLists (ls.getD i []) (ls.getD (ls.length - 1 - i) [])
    else ls.getD i []

/-- `while (listsSize > 1) { ... }` followed by `head->next = lists[0]`. -/
def mergeAll (fuel : Nat) (ls : List (List Val)) : List Val :=
  match fuel with
  | 0 => ls.getD 0 []
  | fuel + 1 =>
    if ls.length ≤ 1 then ls.getD 0 []
    else mergeAll fuel (mergePass ls)

/-- `list_mergesort`: no-op on empty and singular lists, else split the
chain into runs with the stack phase and fold the run array together.
Each `mergePass` at least halves the run count, so `length` is ample fuel
for both phases. -/
def list_mergesort (l : List Val) : List Val :=
  if l.length ≤ 1 then l
  else mergeAll (msLeaves l.length l).length (msLeaves l.length l)

/-- `q_sort`: returns on an absent or empty handle, else runs the active
algorithm `list_mergesort`. -/
def q_sort : Option (List Val) → Option (List Val)
  | none => none
  | some l => some (if l.isEmpty then l else list_mergesort l)

/-! ### The inactive three-way partition sort (`list_qsort`)

The partition pass over the non-pivot elements: equal values are appended
to `list_equal` (`list_move_tail`), smaller values appended to `list_less`,
greater values prepended to `list_greater` (`list_move`, so that bucket
collects in reversed traversal order). -/

/-- The `list_for_each_entry_safe` partition pass with its three
accumulators in traversal order. -/
def partitionLoop : List Val → Val → List Val → List Val → List Val →
    List Val × List Val × List Val
  | [], _, le, eq, gt => (le, eq, gt)
  | x :: rest, pivot, le, eq, gt =>
    if strcmp x pivot = .eq then partitionLoop rest pivot le (eq ++ [x]) gt
    else if strcmp x pivot = .lt then partitionLoop rest pivot (le ++ [x]) eq gt
    else partitionLoop rest pivot le eq (x :: gt)

/-- `list_qsort` with fuel for the recursion on the strictly smaller
buckets: take the first element as pivot, partition, sort the less/greater
buckets, then `list_add` the pivot, `list_splice` equal, `list_splice`
less, `list_splice_tail` greater — i.e. less ++ equal ++ pivot ++ greater. -/
def list_qsortF : Nat → List Val → List Val
  | 0, l => l
  | fuel + 1, l =>
    match l with
    | [] => []
    | [x] => [x]
    | pivot :: rest =>
      let t := partitionLoop rest pivot [] [] []
      list_qsortF fuel t.1 ++ t.2.1 ++ pivot :: list_qsortF fuel t.2.2

/-- `list_qsort` (each bucket is strictly shorter than the input, so the
input length is enough fuel). -/
def list_qsort (l : List Val) : List Val := list_qsortF l.length l

/-- The reassembly order the specification text states: pivot first, then
the equal bucket, then the sorted less bucket, then the sorted greater
bucket.  Kept separate so it can be compared with `list_qsort`. -/
def qsortSpecAssembly (l : List Val) : List Val :=
  match l with
  | [] => []
  | [x] => [x]
  | pivot :: rest =>
    let t := partitionLoop rest pivot [] [] []
    pivot :: (t.2.1 ++ list_qsortF rest.length t.1 ++ list_qsortF rest.length t.2.2)

/-! ### Sequenced insertions and removals (for the FIFO/LIFO property) -/

/-- Insert a sequence of values with `q_insert_tail` into a fresh queue
(all allocations succeeding). -/
def insertAllTail (ss : List Val) : Option (List Val) :=
  ss.foldl (fun q s => (q_insert_tail true true q s).2.1) (some [])

/-- Insert a sequence of values with `q_insert_head` into a fresh queue. -/
def insertAllHead (ss : List Val) : Option (List Val) :=
  ss.foldl (fun q s => (q_insert_head true true q s).2.1) (some [])

/-- Call `q_remove_head` `n` times, collecting the removed values. -/
def removeAllHead : Nat → Option (List Val) → List Val
  | 0, _ => []
  | n + 1, q =>
    match q_remove_head q with
    | none => []
    | some (v, rest) => v :: removeAllHead n (some rest)

/-! ### The pointer structure

To state circularity (`n->next->prev == n`) the link layer is modelled
explicitly: nodes are numbers, `next`/`prev` are functions on them.  A
well-formed list of `k` elements occupies node ids `0` (the sentinel)
through `k`, with `next` the cyclic successor; `m = k + 1` is the node
count.  The NULL pointer of the cut chain inside `list_mergesort` is
modelled by the out-of-range id `m`. -/

structure Circ where
  next : Nat → Nat
  prev : Nat → Nat

/-- Circularity on the first `m` node ids: `n->next->prev == n` and
`n->prev->next == n` for every node of the list, sentinel included. -/
def isCircularOn (m : Nat) (c : Circ) : Prop :=
  ∀ i, i < m → (c.next (c.prev i) = i ∧ c.prev (c.next i) = i)

instance (m : Nat) (c : Circ) : Decidable (isCircularOn m c) :=
  inferInstanceAs (Decidable (∀ i, i < m → (c.next (c.prev i) = i ∧ c.prev (c.next i) = i)))

/-- The canonical pointer structure of a circular list on nodes `0..m-1`. -/
def canonC (m : Nat) : Circ :=
  ⟨fun i => (i + 1) % m, fun i => (i + m - 1) % m⟩

/-- The pointer structure representing a queue holding `l`. -/
def circOf (l : List Val) : Circ := canonC (l.length + 1)

/-- The three-assignment body of the `q_reverse` loop at node `x`:
`t = n->next; n->next = n->prev; n->prev = t`. -/
def swapNode (c : Circ) (x : Nat) : Circ :=
  ⟨Function.update c.next x (c.prev x), Function.update c.prev x (c.next x)⟩

/-- The do-while of `q_reverse`: swap the two pointers of the current node,
step to the saved old `next`, stop on returning to the sentinel `0`. -/
def revLoop : Nat → Circ → Nat → Circ
  | 0, c, _ => c
  | fuel + 1, c, cur =>
    let t := c.next cur
    let c' := swapNode c cur
    if t = 0 then c' else revLoop fuel c' t

/-- `q_reverse` at the pointer level on an `m`-node structure (the guard is
the `!head || list_empty(head)` early return; the cycle has `m` nodes so
`m` iterations of fuel are exact). -/
def q_reverse_ptr (m : Nat) (c : Circ) : Circ :=
  if m ≤ 1 then c else revLoop m c 0

/-- The state of the `q_reverse` walk after the first `k` nodes of the
canonical `m`-node circle have had their two pointers exchanged. -/
def canonSwapUpTo (m k : Nat) : Circ :=
  ⟨fun i => if i < k then (i + m - 1) % m else (i + 1) % m,
   fun i => if i < k then (i + 1) % m else (i + m - 1) % m⟩

/-- The `next` chain `list_mergesort` rebuilds from: node `i` points at
`i + 1`, the last node at NULL (= `m`). -/
def chainNext (m : Nat) : Nat → Nat := fun i => if i + 1 < m then i + 1 else m

/-- The `while (i->next) { i->next->prev = i; i = i->next; }` walk at the
end of `list_mergesort`; returns the rebuilt structure and the final `i`. -/
def relinkLoop : Nat → Circ → Nat → Nat → Circ × Nat
  | 0, c, i, _ => (c, i)
  | fuel + 1, c, i, nullv =>
    if c.next i = nullv then (c, i)
    else
      relinkLoop fuel ⟨c.next, Function.update c.prev (c.next i) i⟩ (c.next i) nullv

/-- The closing phase of `list_mergesort`: rebuild every `prev` in a
forward pass, then `head->prev = i; i->next = head` with `i` the node the
walk stopped on. -/
def mergesortRelink (m : Nat) (c : Circ) : Circ :=
  ⟨Function.update (relinkLoop m c 0 m).1.next (relinkLoop m c 0 m).2 0,
   Function.update (relinkLoop m c 0 m).1.prev 0 (relinkLoop m c 0 m).2⟩

/-! ## Order lemmas for `strcmp` -/

theorem strcmp_eq_iff : ∀ a b : Val, strcmp a b = .eq ↔ a = b
  | [], [] => by simp [strcmp]
  | [], _ :: _ => by simp [strcmp]
  | _ :: _, [] => by simp [strcmp]
  | a :: as, b :: bs => by
    simp only [strcmp]
    rcases Nat.lt_trichotomy a b with h | h | h
    · simp [h, Nat.ne_of_lt h]
    · subst h
      simp [Nat.lt_irrefl, strcmp_eq_iff as bs]
    · simp [h, Nat.lt_asymm h, (Nat.ne_of_lt h).symm]

theorem strcmp_self (a : Val) : strcmp a a = .eq := (strcmp_eq_iff a a).2 rfl

theorem strcmp_cons_lt_iff (x y : Nat) (xs ys : Val) :
    strcmp (x :: xs) (y :: ys) = .lt ↔ x < y ∨ (x = y ∧ strcmp xs ys = .lt) := by
  simp only [strcmp]
  rcases Nat.lt_trichotomy x y with h | h | h
  · simp [h]
  · subst h
    simp [Nat.lt_irrefl]
  · simp [Nat.lt_asymm h, h, Nat.lt_irrefl, (Nat.ne_of_lt h).symm]

theorem strcmp_gt_iff : ∀ a b : Val, strcmp a b = .gt ↔ strcmp b a = .lt
  | [], [] => by simp [strcmp]
  | [], _ :: _ => by simp [strcmp]
  | _ :: _, [] => by simp [strcmp]
  | a :: as, b :: bs => by
    simp only [strcmp]
    rcases Nat.lt_trichotomy a b with h | h | h
    · simp [h, Nat.lt_asymm h]
    · subst h
      simp [Nat.lt_irrefl, strcmp_gt_iff as bs]
    · simp [h, Nat.lt_asymm h]

theorem strcmp_lt_trans : ∀ a b c : Val,
    strcmp a b = .lt → strcmp b c = .lt → strcmp a c = .lt
  | [], [], _ => by simp [strcmp]
  | [], _ :: _, [] => by simp [strcmp]
  | [], _ :: _, _ :: _ => by simp [strcmp]
  | _ :: _, [], _ => by simp [strcmp]
  | _ :: _, _ :: _, [] => by simp [strcmp]
  | x :: xs, y :: ys, z :: zs => by
    intro h1 h2
    rw [strcmp_cons_lt_iff] at h1 h2 ⊢
    rcases h1 with h1 | ⟨rfl, h1⟩
    · rcases h2 with h2 | ⟨rfl, h2⟩
      · exact Or.inl (Nat.lt_trans h1 h2)
      · exact Or.inl h1
    · rcases h2 with h2 | ⟨rfl, h2⟩
      · exact Or.inl h2
      · exact Or.inr ⟨rfl, strcmp_lt_trans xs ys zs h1 h2⟩

theorem strcmp_trichotomy (a b : Val) :
    strcmp a b = .lt ∨ a = b ∨ strcmp b a = .lt := by
  cases h : strcmp a b with
  | lt => exact Or.inl rfl
  | eq => exact Or.inr (Or.inl ((strcmp_eq_iff a b).1 h))
  | gt => exact Or.inr (Or.inr ((strcmp_gt_iff a b).1 h))

theorem slt_ne {a b : Val} (h : slt a b) : a ≠ b := by
  intro he
  subst he
  rw [slt, strcmp_self] at h
  exact Ordering.noConfusion h

theorem slt_of_sle_of_ne {a b : Val} (h1 : sle a b) (h2 : a ≠ b) : slt a b := by
  cases h : strcmp a b with
  | lt => exact h
  | eq => exact absurd ((strcmp_eq_iff a b).1 h) h2
  | gt => exact absurd h h1

theorem sle_of_slt {a b : Val} (h : slt a b) : sle a b := by
  intro hgt
  rw [slt] at h
  rw [h] at hgt
  exact Ordering.noConfusion hgt

theorem not_sle_iff_slt {a b : Val} : ¬ sle a b ↔ slt b a := by
  constructor
  · intro h
    rw [sle, not_not] at h
    exact (strcmp_gt_iff a b).1 h
  · intro h hle
    exact hle ((strcmp_gt_iff a b).2 h)

theorem slt_sle_trans {a b c : Val} (h1 : slt a b) (h2 : sle b c) : slt a c := by
  rcases strcmp_trichotomy b c with h | rfl | h
  · exact strcmp_lt_trans a b c h1 h
  · exact h1
  · exact absurd ((strcmp_gt_iff b c).2 h) h2

theorem sle_slt_trans {a b c : Val} (h1 : sle a b) (h2 : slt b c) : slt a c := by
  rcases strcmp_trichotomy a b with h | rfl | h
  · exact strcmp_lt_trans a b c h h2
  · exact h2
  · exact absurd ((strcmp_gt_iff a b).2 h) h1

theorem sle_refl (a : Val) : sle a a := by
  intro h
  rw [strcmp_self a] at h
  exact Ordering.noConfusion h

theorem sle_trans {a b c : Val} (h1 : sle a b) (h2 : sle b c) : sle a c := by
  rcases strcmp_trichotomy a b with h | rfl | h
  · exact sle_of_slt (slt_sle_trans h h2)
  · exact h2
  · exact absurd ((strcmp_gt_iff a b).2 h) h1

/-! ## The two-cursor scan of `q_delete_mid` -/

theorem midScan_even : ∀ (k fuel i : Nat), k ≤ fuel → midScan fuel i (i + 2 * k) = i + k := by
  intro k
  induction k with
  | zero =>
    intro fuel i _
    cases fuel with
    | zero => simp [midScan]
    | succ f => simp [midScan]
  | succ k ih =>
    intro fuel i hk
    cases fuel with
    | zero => omega
    | succ f =>
      have h1 : ¬(i = i + 2 * (k + 1) ∨ i + 1 = i + 2 * (k + 1)) := by omega
      have h2 : i + 2 * (k + 1) - 1 = (i + 1) + 2 * k := by omega
      simp only [midScan, h1, if_false]
      rw [h2, ih f (i + 1) (by omega)]
      omega

theorem midScan_odd : ∀ (k fuel i : Nat), k ≤ fuel → midScan fuel i (i + 2 * k + 1) = i + k := by
  intro k
  induction k with
  | zero =>
    intro fuel i _
    cases fuel with
    | zero => simp [midScan]
    | succ f => simp [midScan]
  | succ k ih =>
    intro fuel i hk
    cases fuel with
    | zero => omega
    | succ f =>
      have h1 : ¬(i = i + 2 * (k + 1) + 1 ∨ i + 1 = i + 2 * (k + 1) + 1) := by omega
      have h2 : i + 2 * (k + 1) + 1 - 1 = (i + 1) + 2 * k + 1 := by omega
      simp only [midScan, h1, if_false]
      rw [h2, ih f (i + 1) (by omega)]
      omega

theorem midScan_start (n : Nat) (hn : 1 ≤ n) : midScan n 0 (n - 1) = (n - 1) / 2 := by
  rcases Nat.even_or_odd (n - 1) with ⟨k, hk⟩ | ⟨k, hk⟩
  · have h1 : n - 1 = 0 + 2 * k := by omega
    rw [h1, midScan_even k n 0 (by omega)]
    omega
  · have h1 : n - 1 = 0 + 2 * k + 1 := by omega
    rw [h1, midScan_odd k n 0 (by omega)]
    omega

/-! ## Insert/remove sequencing lemmas -/

theorem foldl_insert_tail (ss : List Val) :
    ∀ l : List Val,
      ss.foldl (fun q s => (q_insert_tail true true q s).2.1) (some l) = some (l ++ ss) := by
  induction ss with
  | nil => simp
  | cons s ss ih =>
    intro l
    have hstep : (q_insert_tail true true (some l) s).2.1 = some (l ++ [s]) := rfl
    simp only [List.foldl_cons, hstep]
    rw [ih (l ++ [s])]
    simp

theorem foldl_insert_head (ss : List Val) :
    ∀ l : List Val,
      ss.foldl (fun q s => (q_insert_head true true q s).2.1) (some l) =
        some (ss.reverse ++ l) := by
  induction ss with
  | nil => simp
  | cons s ss ih =>
    intro l
    have hstep : (q_insert_head true true (some l) s).2.1 = some (s :: l) := rfl
    simp only [List.foldl_cons, hstep]
    rw [ih (s :: l)]
    simp

theorem removeAllHead_all : ∀ l : List Val, removeAllHead l.length (some l) = l := by
  intro l
  induction l with
  | nil => simp [removeAllHead]
  | cons x xs ih => simp [removeAllHead, q_remove_head, ih]

/-! ## Claim theorems (first group) -/

/-- C1: the spec states that `q_sort` always produces a non-decreasing
value sequence.  The code violates this: the duplicate-run shortcut in the
split scan of `list_mergesort` can hand an unsorted segment to the ready
array as a finished run.  On `["b","a","a","a","a"]` (bytes 98/97) the
whole list is emitted as one "run" and returned unchanged, which is not
sorted.  This theorem evaluates the embedded code at that failing input. -/
theorem q_sort_equal_run_shortcut_leaves_list_unsorted :
    q_sort (some [[98], [97], [97], [97], [97]]) =
        some [[98], [97], [97], [97], [97]] ∧
      ¬ sortedVals [[98], [97], [97], [97], [97]] := by
  constructor
  · decide
  · intro h
    exact (List.chain'_cons.1 h).1 rfl

/-- C2: the spec states that `q_delete_mid` removes the element at
zero-based index `⌊n/2⌋` (so index 3 for a six-element list).  The code's
two-cursor loop stops at index `⌊(n-1)/2⌋` instead: on the six-element
list ["0",...,"5"] it deletes index 2 (value "2"), leaving [0,1,3,4,5].
This theorem proves the general index and evaluates the failing input. -/
theorem q_delete_mid_removes_index_pred_half :
    (∀ l : List Val, l ≠ [] →
        q_delete_mid (some l) = (true, some (l.eraseIdx ((l.length - 1) / 2)))) ∧
      q_delete_mid (some [[48], [49], [50], [51], [52], [53]]) =
        (true, some [[48], [49], [51], [52], [53]]) ∧
      q_delete_mid none = (false, none) ∧
      q_delete_mid (some []) = (false, some []) := by
  refine ⟨?_, by decide, rfl, rfl⟩
  intro l hl
  match l, hl with
  | x :: xs, _ =>
    simp only [q_delete_mid]
    rw [midScan_start (x :: xs).length (by simp)]

/-- Witness for C2 at the concrete input ["a","b","c"]. -/
theorem q_delete_mid_removes_index_pred_half_witness :
    q_delete_mid (some [[97], [98], [99]]) =
      (true, some (([[97], [98], [99]] : List Val).eraseIdx
        ((([[97], [98], [99]] : List Val).length - 1) / 2))) :=
  q_delete_mid_removes_index_pred_half.1 [[97], [98], [99]] (by decide)

/-- C7: `q_insert_head` and `q_insert_tail` return false and leave the
queue contents unchanged when the handle is absent or when the element
allocation or the string copy fails; on the partial-failure path the
element already allocated is freed before returning (zero allocations
leak), and on success the value is stored at the requested end. -/
theorem q_insert_failure_paths_unwind :
    (∀ (ae as : Bool) (s : Val), q_insert_head ae as none s = (false, none, 0)) ∧
      (∀ (ae as : Bool) (s : Val), q_insert_tail ae as none s = (false, none, 0)) ∧
      (∀ (as : Bool) (l : List Val) (s : Val),
        q_insert_head false as (some l) s = (false, some l, 0)) ∧
      (∀ (as : Bool) (l : List Val) (s : Val),
        q_insert_tail false as (some l) s = (false, some l, 0)) ∧
      (∀ (l : List Val) (s : Val),
        q_insert_head true false (some l) s = (false, some l, 0)) ∧
      (∀ (l : List Val) (s : Val),
        q_insert_tail true false (some l) s = (false, some l, 0)) ∧
      (∀ (l : List Val) (s : Val),
        q_insert_head true true (some l) s = (true, some (s :: l), 0)) ∧
      (∀ (l : List Val) (s : Val),
        q_insert_tail true true (some l) s = (true, some (l ++ [s]), 0)) :=
  ⟨fun _ _ _ => rfl, fun _ _ _ => rfl, fun _ _ _ => rfl, fun _ _ _ => rfl,
   fun _ _ => rfl, fun _ _ => rfl, fun _ _ => rfl, fun _ _ => rfl⟩

/-- C8: inserting values at the tail of a fresh queue and then removing
from the head yields them in insertion order (FIFO); inserting at the head
and removing from the head yields them in reverse order (LIFO). -/
theorem insert_remove_fifo_lifo (ss : List Val) :
    removeAllHead ss.length (insertAllTail ss) = ss ∧
      removeAllHead ss.length (insertAllHead ss) = ss.reverse := by
  constructor
  · rw [insertAllTail, foldl_insert_tail ss []]
    simpa using removeAllHead_all ss
  · rw [insertAllHead, foldl_insert_head ss []]
    have h := removeAllHead_all ss.reverse
    rw [List.length_reverse] at h
    simpa using h

/-- C10: both removal functions compute the `strncpy` length and the
terminator index as `bufsize - 1` in 64-bit unsigned arithmetic, so for
`bufsize = 0` both wrap to `2^64 - 1` (the zero-capacity case is not a
no-copy case), while for `bufsize ≥ 1` they are the ordinary `bufsize - 1`. -/
theorem remove_copy_length_wraps_at_zero :
    bufsub1 0 = 2 ^ 64 - 1 ∧
      (∀ b : Nat, 1 ≤ b → b < 2 ^ 64 → bufsub1 b = b - 1) ∧
      (∀ (x : Val) (xs : List Val) (b : Nat),
        (q_remove_head_buf (some (x :: xs)) b).2 =
          some (strncpyBytes x (bufsub1 b), bufsub1 b)) ∧
      (∀ (x : Val) (xs : List Val) (b : Nat),
        (q_remove_tail_buf (some (x :: xs)) b).2 =
          some (strncpyBytes ((x :: xs).getLast (by simp)) (bufsub1 b), bufsub1 b)) := by
  refine ⟨by norm_num [bufsub1], ?_, fun _ _ _ => rfl, fun _ _ _ => rfl⟩
  intro b h1 h2
  unfold bufsub1
  omega

/-- Witness for C10 at `bufsize = 7`. -/
theorem remove_copy_length_wraps_at_zero_witness : bufsub1 7 = 7 - 1 :=
  remove_copy_length_wraps_at_zero.2.1 7 (by norm_num) (by norm_num)

/-! ## Modular cycle arithmetic and the pointer-level loops -/

theorem cycle_right_left (m i : Nat) (h : i < m) : ((i + 1) % m + m - 1) % m = i := by
  rcases Nat.lt_or_ge (i + 1) m with h1 | h1
  · rw [Nat.mod_eq_of_lt h1]
    have h2 : i + 1 + m - 1 = i + m := by omega
    rw [h2, Nat.add_mod_right, Nat.mod_eq_of_lt h]
  · have h2 : i + 1 = m := by omega
    rw [h2, Nat.mod_self]
    have h3 : 0 + m - 1 = i := by omega
    rw [h3, Nat.mod_eq_of_lt h]

theorem cycle_left_right (m i : Nat) (h : i < m) : ((i + m - 1) % m + 1) % m = i := by
  rcases Nat.eq_zero_or_pos i with rfl | hi
  · have h1 : 0 + m - 1 = m - 1 := by omega
    rw [h1, Nat.mod_eq_of_lt (show m - 1 < m by omega)]
    have h2 : m - 1 + 1 = m := by omega
    rw [h2, Nat.mod_self]
  · have h1 : i + m - 1 = (i - 1) + m := by omega
    rw [h1, Nat.add_mod_right, Nat.mod_eq_of_lt (show i - 1 < m by omega)]
    have h2 : i - 1 + 1 = i := by omega
    rw [h2, Nat.mod_eq_of_lt h]

theorem canon_ptws_circular (m : Nat) (c : Circ)
    (h : ∀ i, i < m → c.next i = (i + 1) % m ∧ c.prev i = (i + m - 1) % m) :
    isCircularOn m c := by
  intro i hi
  have hm : 0 < m := Nat.lt_of_le_of_lt (Nat.zero_le i) hi
  have hp : (i + m - 1) % m < m := Nat.mod_lt _ hm
  have hn : (i + 1) % m < m := Nat.mod_lt _ hm
  constructor
  · rw [(h i hi).2, (h _ hp).1, cycle_left_right m i hi]
  · rw [(h i hi).1, (h _ hn).2, cycle_right_left m i hi]

theorem canonC_circular (m : Nat) : isCircularOn m (canonC m) :=
  canon_ptws_circular m (canonC m) (fun _ _ => ⟨rfl, rfl⟩)

theorem circOf_circular (l : List Val) : isCircularOn (l.length + 1) (circOf l) :=
  canonC_circular (l.length + 1)

theorem canonSwapUpTo_zero (m : Nat) : canonSwapUpTo m 0 = canonC m := by
  unfold canonSwapUpTo canonC
  simp

theorem swapNode_canonSwapUpTo (m k : Nat) :
    swapNode (canonSwapUpTo m k) k = canonSwapUpTo m (k + 1) := by
  unfold swapNode canonSwapUpTo
  refine congrArg₂ Circ.mk ?_ ?_ <;>
  · funext i
    rcases Nat.lt_trichotomy i k with h | rfl | h
    · rw [Function.update_noteq (by omega)]
      simp only [if_pos h, if_pos (by omega : i < k + 1)]
    · rw [Function.update_same]
      simp only [if_neg (by omega : ¬ i < i), if_pos (by omega : i < i + 1)]
    · rw [Function.update_noteq (by omega)]
      simp only [if_neg (by omega : ¬ i < k), if_neg (by omega : ¬ i < k + 1)]

theorem revLoop_canon (m : Nat) :
    ∀ (f k : Nat), k < m → m - k ≤ f →
      revLoop f (canonSwapUpTo m k) k = canonSwapUpTo m m := by
  intro f
  induction f with
  | zero => intro k hk hf; omega
  | succ f ih =>
    intro k hk _
    show (let t := (canonSwapUpTo m k).next k
          let c' := swapNode (canonSwapUpTo m k) k
          if t = 0 then c' else revLoop f c' t) = canonSwapUpTo m m
    have hnext : (canonSwapUpTo m k).next k = (k + 1) % m := by
      simp [canonSwapUpTo]
    rcases Nat.lt_or_ge (k + 1) m with h1 | h1
    · have ht : (canonSwapUpTo m k).next k = k + 1 := by
        rw [hnext, Nat.mod_eq_of_lt h1]
      simp only [ht, swapNode_canonSwapUpTo]
      rw [if_neg (by omega : ¬ k + 1 = 0)]
      exact ih (k + 1) h1 (by omega)
    · have hk1 : k + 1 = m := by omega
      have ht : (canonSwapUpTo m k).next k = 0 := by
        rw [hnext, hk1, Nat.mod_self]
      simp [ht, swapNode_canonSwapUpTo, hk1]

theorem q_reverse_ptr_canon (m : Nat) (hm : 2 ≤ m) :
    q_reverse_ptr m (canonC m) = canonSwapUpTo m m := by
  unfold q_reverse_ptr
  rw [if_neg (by omega), ← canonSwapUpTo_zero m]
  exact revLoop_canon m m 0 (by omega) (by omega)

theorem canonSwapUpTo_full_ptws (m : Nat) :
    ∀ i, i < m → (canonSwapUpTo m m).next i = (canonC m).prev i ∧
      (canonSwapUpTo m m).prev i = (canonC m).next i := by
  intro i hi
  constructor <;> simp [canonSwapUpTo, canonC, if_pos hi]

theorem canon_mirror_circular (m : Nat) (c : Circ)
    (h : ∀ i, i < m → c.next i = (i + m - 1) % m ∧ c.prev i = (i + 1) % m) :
    isCircularOn m c := by
  intro i hi
  have hm : 0 < m := Nat.lt_of_le_of_lt (Nat.zero_le i) hi
  have hp : (i + 1) % m < m := Nat.mod_lt _ hm
  have hn : (i + m - 1) % m < m := Nat.mod_lt _ hm
  constructor
  · rw [(h i hi).2, (h _ hp).1, cycle_right_left m i hi]
  · rw [(h i hi).1, (h _ hn).2, cycle_left_right m i hi]

theorem q_reverse_ptr_circular (m : Nat) : isCircularOn m (q_reverse_ptr m (canonC m)) := by
  rcases Nat.lt_or_ge m 2 with h | h
  · unfold q_reverse_ptr
    rw [if_pos (by omega)]
    exact canonC_circular m
  · rw [q_reverse_ptr_canon m h]
    exact canon_mirror_circular m _ (fun i hi => canonSwapUpTo_full_ptws m i hi)

theorem relinkLoop_chain (m : Nat) :
    ∀ (f k : Nat) (c : Circ), c.next = chainNext m → k < m → m - 1 - k ≤ f →
      relinkLoop f c k m =
        (⟨chainNext m, fun j => if k + 1 ≤ j ∧ j ≤ m - 1 then j - 1 else c.prev j⟩, m - 1) := by
  intro f
  induction f with
  | zero =>
    intro k c hnext hk hf
    have hk1 : k = m - 1 := by omega
    obtain ⟨cn, cp⟩ := c
    simp only at hnext
    subst hnext
    subst hk1
    show ((⟨chainNext m, cp⟩ : Circ), m - 1) = _
    refine Prod.ext ?_ rfl
    refine congrArg₂ Circ.mk rfl ?_
    funext j
    rw [if_neg (by omega)]
  | succ f ih =>
    intro k c hnext hk hf
    show (if c.next k = m then (c, k)
          else relinkLoop f ⟨c.next, Function.update c.prev (c.next k) k⟩ (c.next k) m) = _
    rcases Nat.lt_or_ge (k + 1) (m) with h1 | h1
    · have hck : c.next k = k + 1 := by
        rw [hnext]
        unfold chainNext
        rw [if_pos h1]
      rw [hck, if_neg (by omega)]
      rw [ih (k + 1) ⟨c.next, Function.update c.prev (k + 1) k⟩ hnext h1 (by omega)]
      refine Prod.ext ?_ rfl
      refine congrArg₂ Circ.mk rfl ?_
      funext j
      simp only
      rcases Nat.lt_trichotomy j (k + 1) with hj | hj | hj
      · rw [if_neg (by omega), if_neg (by omega), Function.update_noteq (by omega)]
      · rw [if_neg (by omega), if_pos (by omega), hj, Function.update_same]
        omega
      · by_cases hj2 : j ≤ m - 1
        · rw [if_pos (by omega), if_pos (by omega)]
        · rw [if_neg (by omega), if_neg (by omega), Function.update_noteq (by omega)]
    · have hkm : k = m - 1 := by omega
      have hck : c.next k = m := by
        rw [hnext]
        unfold chainNext
        rw [if_neg (by omega)]
      rw [hck, if_pos rfl]
      obtain ⟨cn, cp⟩ := c
      simp only at hnext
      subst hnext
      subst hkm
      refine Prod.ext ?_ rfl
      refine congrArg₂ Circ.mk rfl ?_
      funext j
      rw [if_neg (by omega)]

theorem mergesortRelink_ptws (m : Nat) (hm : 1 ≤ m) (p : Nat → Nat) :
    ∀ i, i < m → (mergesortRelink m ⟨chainNext m, p⟩).next i = (i + 1) % m ∧
      (mergesortRelink m ⟨chainNext m, p⟩).prev i = (i + m - 1) % m := by
  intro i hi
  unfold mergesortRelink
  rw [relinkLoop_chain m m 0 ⟨chainNext m, p⟩ rfl (by omega) (by omega)]
  dsimp only
  constructor
  · rcases Nat.eq_or_lt_of_le (Nat.succ_le_of_lt hi) with h1 | h1
    · have h2 : i = m - 1 := by omega
      subst h2
      rw [Function.update_same]
      have h3 : m - 1 + 1 = m := by omega
      rw [h3, Nat.mod_self]
    · rw [Function.update_noteq (by omega)]
      unfold chainNext
      rw [if_pos (by omega), Nat.mod_eq_of_lt (by omega)]
  · rcases Nat.eq_zero_or_pos i with rfl | h1
    · rw [Function.update_same]
      have h2 : 0 + m - 1 = m - 1 := by omega
      rw [h2, Nat.mod_eq_of_lt (show m - 1 < m by omega)]
    · rw [Function.update_noteq (by omega)]
      show (if 0 + 1 ≤ i ∧ i ≤ m - 1 then i - 1 else p i) = (i + m - 1) % m
      rw [if_pos (by omega)]
      have h2 : i + m - 1 = (i - 1) + m := by omega
      rw [h2, Nat.add_mod_right, Nat.mod_eq_of_lt (show i - 1 < m by omega)]

theorem mergesortRelink_circular (m : Nat) (hm : 1 ≤ m) (p : Nat → Nat) :
    isCircularOn m (mergesortRelink m ⟨chainNext m, p⟩) :=
  canon_ptws_circular m _ (mergesortRelink_ptws m hm p)

/-! ## Claim theorems (second group) -/

/-- C4: every public operation returns with circularity restored.  At the
pointer level: the final relink pass of `list_mergesort` rebuilds a fully
circular structure from the sorted NULL-terminated chain whatever stale
`prev` pointers (`p`) it starts from, and the `q_reverse` pointer walk
leaves the canonical circular structure circular.  At the value level,
the state every operation returns represents a circular list: for every
node `n` of it, `n.next.prev = n` and `n.prev.next = n`. -/
theorem public_ops_restore_circularity :
    (∀ (m : Nat) (p : Nat → Nat), 1 ≤ m →
        isCircularOn m (mergesortRelink m ⟨chainNext m, p⟩)) ∧
      (∀ m : Nat, isCircularOn m (q_reverse_ptr m (canonC m))) ∧
      (∀ (ae as : Bool) (q : Option (List Val)) (s : Val),
        isCircularOn (((q_insert_head ae as q s).2.1.getD []).length + 1)
          (circOf ((q_insert_head ae as q s).2.1.getD [])) ∧
        isCircularOn (((q_insert_tail ae as q s).2.1.getD []).length + 1)
          (circOf ((q_insert_tail ae as q s).2.1.getD []))) ∧
      (∀ q : Option (List Val),
        isCircularOn (((q_remove_head q).elim [] Prod.snd).length + 1)
          (circOf ((q_remove_head q).elim [] Prod.snd)) ∧
        isCircularOn (((q_remove_tail q).elim [] Prod.snd).length + 1)
          (circOf ((q_remove_tail q).elim [] Prod.snd)) ∧
        isCircularOn (((q_delete_mid q).2.getD []).length + 1)
          (circOf ((q_delete_mid q).2.getD [])) ∧
        isCircularOn (((q_delete_dup q).2.getD []).length + 1)
          (circOf ((q_delete_dup q).2.getD [])) ∧
        isCircularOn (((q_swap q).getD []).length + 1) (circOf ((q_swap q).getD [])) ∧
        isCircularOn (((q_reverse q).getD []).length + 1) (circOf ((q_reverse q).getD [])) ∧
        isCircularOn (((q_sort q).getD []).length + 1) (circOf ((q_sort q).getD []))) :=
  ⟨fun m p hm => mergesortRelink_circular m hm p,
   q_reverse_ptr_circular,
   fun _ _ _ _ => ⟨circOf_circular _, circOf_circular _⟩,
   fun _ => ⟨circOf_circular _, circOf_circular _, circOf_circular _, circOf_circular _,
     circOf_circular _, circOf_circular _, circOf_circular _⟩⟩

/-- Witness for C4: the relink pass applied on three nodes with garbage
`prev` pointers yields a circular structure. -/
theorem public_ops_restore_circularity_witness :
    isCircularOn 3 (mergesortRelink 3 ⟨chainNext 3, Nat.succ⟩) :=
  public_ops_restore_circularity.1 3 Nat.succ (by norm_num)

/-- C9: `q_reverse` applied twice restores the original traversal order
for every queue, is a no-op on an absent or empty queue, and at the
pointer level it exchanges `next` and `prev` on every node of the list,
the sentinel included, moving no element. -/
theorem q_reverse_involutive_and_swaps_links :
    (∀ q : Option (List Val), q_reverse (q_reverse q) = q) ∧
      q_reverse none = none ∧
      q_reverse (some []) = some [] ∧
      (∀ m : Nat, 2 ≤ m → ∀ i, i < m →
        (q_reverse_ptr m (canonC m)).next i = (canonC m).prev i ∧
        (q_reverse_ptr m (canonC m)).prev i = (canonC m).next i) := by
  refine ⟨?_, rfl, rfl, ?_⟩
  · intro q
    cases q with
    | none => rfl
    | some l => simp [q_reverse]
  · intro m hm i hi
    rw [q_reverse_ptr_canon m hm]
    exact canonSwapUpTo_full_ptws m i hi

/-- Witness for C9: on a three-node circle, node 1 has its two pointers
exchanged by the reverse walk. -/
theorem q_reverse_involutive_and_swaps_links_witness :
    (q_reverse_ptr 3 (canonC 3)).next 1 = (canonC 3).prev 1 ∧
      (q_reverse_ptr 3 (canonC 3)).prev 1 = (canonC 3).next 1 :=
  q_reverse_involutive_and_swaps_links.2.2.2 3 (by norm_num) 1 (by norm_num)

/-! ## The three-way partition sort -/

theorem partitionLoop_eq (pivot : Val) :
    ∀ (rest le eq gt : List Val),
      partitionLoop rest pivot le eq gt =
        (le ++ rest.filter (fun x => decide (strcmp x pivot = .lt)),
         eq ++ rest.filter (fun x => decide (strcmp x pivot = .eq)),
         (rest.filter (fun x => decide (strcmp x pivot = .gt))).reverse ++ gt) := by
  intro rest
  induction rest with
  | nil => simp [partitionLoop]
  | cons x rest ih =>
    intro le eq gt
    cases h : strcmp x pivot with
    | lt =>
      rw [partitionLoop, if_neg (by simp [h]), if_pos h, ih]
      simp [h]
    | eq =>
      rw [partitionLoop, if_pos h, ih]
      simp [h]
    | gt =>
      rw [partitionLoop, if_neg (by simp [h]), if_neg (by simp [h]), ih]
      simp [h]

theorem list_qsortF_fuel :
    ∀ (f g : Nat) (l : List Val), l.length ≤ f → l.length ≤ g →
      list_qsortF f l = list_qsortF g l := by
  intro f
  induction f with
  | zero =>
    intro g l hf _
    have hl : l = [] := List.length_eq_zero.1 (by omega)
    subst hl
    cases g with
    | zero => rfl
    | succ g => rfl
  | succ f ih =>
    intro g l hf hg
    cases g with
    | zero =>
      have hl : l = [] := List.length_eq_zero.1 (by omega)
      subst hl
      rfl
    | succ g =>
      match l with
      | [] => rfl
      | [x] => rfl
      | pivot :: x :: rest =>
        have hstep : ∀ h : Nat,
            list_qsortF (h + 1) (pivot :: x :: rest) =
              list_qsortF h (partitionLoop (x :: rest) pivot [] [] []).1 ++
                (partitionLoop (x :: rest) pivot [] [] []).2.1 ++
                pivot :: list_qsortF h (partitionLoop (x :: rest) pivot [] [] []).2.2 :=
          fun _ => rfl
        rw [hstep f, hstep g, partitionLoop_eq]
        simp only [List.nil_append, List.append_nil]
        have hle := List.length_filter_le (fun v => decide (strcmp v pivot = .lt)) (x :: rest)
        have hgt := List.length_filter_le (fun v => decide (strcmp v pivot = .gt)) (x :: rest)
        simp only [List.length_cons] at hf hg hle hgt
        rw [ih g (List.filter (fun v => decide (strcmp v pivot = .lt)) (x :: rest))
            (by omega) (by omega)]
        rw [ih g ((List.filter (fun v => decide (strcmp v pivot = .gt)) (x :: rest)).reverse)
            (by simp only [List.length_reverse]; omega)
            (by simp only [List.length_reverse]; omega)]

/-- C5 counterexample: the spec sentence says `list_qsort` reassembles as
pivot, equal, less, greater; on the two-element input ["b","a"] that order
would return ["b","a"], but the code returns ["a","b"]: the pivot is added
first and the other buckets are spliced in front of or behind it, giving
less, equal, pivot, greater. -/
theorem list_qsort_spec_assembly_counterexample :
    list_qsort [[98], [97]] ≠ qsortSpecAssembly [[98], [97]] ∧
      list_qsort [[98], [97]] = [[97], [98]] ∧
      qsortSpecAssembly [[98], [97]] = [[98], [97]] :=
  ⟨by decide, by decide, by decide⟩

/-- C5 (amended): `list_qsort` takes the first element as pivot, splits the
remaining elements in one pass into less-than, equal-to and greater-than
buckets (the greater bucket collecting in reversed traversal order because
it is built with head insertion), recursively sorts the less and greater
buckets, and reassembles as sorted-less-bucket, equal-bucket, pivot,
sorted-greater-bucket in that concatenation order. -/
theorem list_qsort_assembles_less_equal_pivot_greater (pivot : Val) (rest : List Val) :
    list_qsort (pivot :: rest) =
      list_qsort (rest.filter fun x => decide (strcmp x pivot = .lt)) ++
        (rest.filter fun x => decide (strcmp x pivot = .eq)) ++
        pivot :: list_qsort ((rest.filter fun x => decide (strcmp x pivot = .gt)).reverse) := by
  cases rest with
  | nil => simp [list_qsort, list_qsortF]
  | cons x rest' =>
    unfold list_qsort
    have hstep :
        list_qsortF (pivot :: x :: rest').length (pivot :: x :: rest') =
          list_qsortF (x :: rest').length (partitionLoop (x :: rest') pivot [] [] []).1 ++
            (partitionLoop (x :: rest') pivot [] [] []).2.1 ++
            pivot ::
              list_qsortF (x :: rest').length (partitionLoop (x :: rest') pivot [] [] []).2.2 :=
      rfl
    rw [hstep, partitionLoop_eq]
    simp only [List.nil_append, List.append_nil]
    have hle := List.length_filter_le (fun v => decide (strcmp v pivot = .lt)) (x :: rest')
    have hgt := List.length_filter_le (fun v => decide (strcmp v pivot = .gt)) (x :: rest')
    rw [list_qsortF_fuel (x :: rest').length
        (List.filter (fun v => decide (strcmp v pivot = .lt)) (x :: rest')).length
        (List.filter (fun v => decide (strcmp v pivot = .lt)) (x :: rest')) hle le_rfl]
    rw [list_qsortF_fuel (x :: rest').length
        ((List.filter (fun v => decide (strcmp v pivot = .gt)) (x :: rest')).reverse).length
        ((List.filter (fun v => decide (strcmp v pivot = .gt)) (x :: rest')).reverse)
        (by simp only [List.length_reverse]; exact hgt) le_rfl]

/-! ## Duplicate deletion -/

theorem chain'_sle_head {e : Val} {t : List Val} (h : List.Chain' sle (e :: t)) :
    ∀ y ∈ t, sle e y := by
  induction t generalizing e with
  | nil =>
    intro y hy
    simp at hy
  | cons d t ih =>
    intro y hy
    rw [List.chain'_cons] at h
    rcases List.mem_cons.1 hy with rfl | hy2
    · exact h.1
    · exact sle_trans h.1 (ih h.2 y hy2)

theorem not_mem_of_slt_chain' {b e : Val} {t : List Val}
    (hlt : slt b e) (h : List.Chain' sle (e :: t)) : b ∉ e :: t := by
  intro hmem
  rcases List.mem_cons.1 hmem with rfl | hmem2
  · exact slt_ne hlt rfl
  · exact slt_ne (slt_sle_trans hlt (chain'_sle_head h b hmem2)) rfl

theorem dropWhile_head_not (p : Val → Bool) :
    ∀ (l : List Val) (e : Val) (t : List Val), l.dropWhile p = e :: t → p e = false := by
  intro l
  induction l with
  | nil =>
    intro e t h
    simp [List.dropWhile] at h
  | cons a l ih =>
    intro e t h
    rw [List.dropWhile_cons] at h
    by_cases hp : p a = true
    · rw [if_pos hp] at h
      exact ih e t h
    · rw [if_neg hp] at h
      injection h with h1 _
      subst h1
      simpa using hp

theorem dedupLoop_true_eq (b : Val) :
    ∀ r : List Val, dedupLoop b r true = dedupVals (r.dropWhile (fun y => y == b)) := by
  intro r
  induction r with
  | nil => rfl
  | cons d r2 ih =>
    by_cases h : strcmp b d = .eq
    · have hbd : b = d := (strcmp_eq_iff b d).1 h
      rw [show dedupLoop b (d :: r2) true = dedupLoop b r2 true from by
            simp [dedupLoop, h]]
      rw [ih, List.dropWhile_cons, if_pos (by simp [hbd.symm])]
    · have hdb : d ≠ b := fun he => h ((strcmp_eq_iff b d).2 he.symm)
      rw [show dedupLoop b (d :: r2) true = dedupLoop d r2 false from by
            simp [dedupLoop, h]]
      rw [List.dropWhile_cons, if_neg (by simp [hdb])]
      rfl

theorem dedupVals_spec : ∀ (n : Nat) (l : List Val), l.length ≤ n → List.Chain' sle l →
    dedupVals l = l.filter (fun x => l.count x == 1) := by
  intro n
  induction n with
  | zero =>
    intro l hl _
    have h0 : l = [] := List.length_eq_zero.1 (by omega)
    subst h0
    rfl
  | succ n ih =>
    intro l hl hchain
    match l with
    | [] => rfl
    | [x] => simp [dedupVals, dedupLoop, List.count_cons]
    | x :: c :: r =>
      by_cases hxc : strcmp x c = .eq
      · have hxceq : x = c := (strcmp_eq_iff x c).1 hxc
        subst hxceq
        show dedupLoop x (x :: r) false = _
        rw [show dedupLoop x (x :: r) false = dedupLoop x r true from by
              simp [dedupLoop, strcmp_self]]
        rw [dedupLoop_true_eq]
        set dw := r.dropWhile (fun y => y == x) with hdw
        set tw := r.takeWhile (fun y => y == x) with htwd
        have htw : tw ++ dw = r := by
          rw [htwd, hdw]
          exact List.takeWhile_append_dropWhile _ _
        have hsuf : dw <:+ x :: x :: r := by
          rw [hdw]
          exact (List.dropWhile_suffix _).trans
            ((List.suffix_cons x r).trans (List.suffix_cons x (x :: r)))
        have hchainsuf : List.Chain' sle dw := hchain.suffix hsuf
        have helem : ∀ y ∈ dw, slt x y := by
          cases hr'e : dw with
          | nil =>
            intro y hy
            simp at hy
          | cons e t =>
            have hpe : (fun y => y == x) e = false :=
              dropWhile_head_not _ r e t (by rw [← hdw]; exact hr'e)
            have hex : e ≠ x := by simpa using hpe
            have hein : e ∈ r := by
              have hm : e ∈ dw := by
                rw [hr'e]
                exact List.mem_cons_self e t
              rw [hdw] at hm
              exact (List.dropWhile_suffix _).sublist.subset hm
            have hsle : sle x e :=
              chain'_sle_head hchain e (List.mem_cons_of_mem x hein)
            have hxe : slt x e := slt_of_sle_of_ne hsle (Ne.symm hex)
            intro y hy
            rcases List.mem_cons.1 hy with rfl | hy2
            · exact hxe
            · have hchaine : List.Chain' sle (e :: t) := hr'e ▸ hchainsuf
              exact slt_sle_trans hxe (chain'_sle_head hchaine y hy2)
        have hIH : dedupVals dw = dw.filter (fun y => (dw.count y == 1)) := by
          refine ih _ ?_ hchainsuf
          have h1 : dw.length ≤ r.length := by
            rw [hdw]
            exact (List.dropWhile_suffix _).sublist.length_le
          simp only [List.length_cons] at hl
          omega
        rw [hIH]
        have hcx : ((x :: x :: r).count x == 1) = false := by
          have h1 : (x :: x :: r).count x = (x :: r).count x + 1 := List.count_cons_self x _
          have h2 : (x :: r).count x = r.count x + 1 := List.count_cons_self x _
          simp only [h1, h2]
          simp
        set pL := fun y : Val => ((x :: x :: r).count y == 1) with hpL
        have hpLx : ¬ pL x = true := by
          rw [show pL x = false from hcx]
          simp
        rw [List.filter_cons_of_neg hpLx, List.filter_cons_of_neg hpLx]
        rw [← htw, List.filter_append]
        have htwnil : tw.filter pL = [] := by
          refine List.filter_eq_nil_iff.2 (fun a ha => ?_)
          have hax : a = x := by
            have hp := List.mem_takeWhile_imp (htwd ▸ ha)
            simpa using hp
          subst hax
          exact hpLx
        rw [htwnil, List.nil_append]
        refine List.filter_congr (fun y hy => ?_)
        have hxy : slt x y := helem y hy
        have hyx : (y == x) = false := by
          simpa using fun he => slt_ne hxy he.symm
        have hcy : (x :: x :: r).count y = dw.count y := by
          have h1 : (x :: x :: r).count y = r.count y := by
            simp [List.count_cons, slt_ne hxy]
          have h2 : r.count y = tw.count y + dw.count y := by
            rw [← htw]
            exact List.count_append y _ _
          have h3 : tw.count y = 0 := by
            refine List.count_eq_zero.2 (fun hmem => ?_)
            have hyx2 : y = x := by
              have hp := List.mem_takeWhile_imp (htwd ▸ hmem)
              simpa using hp
            exact slt_ne hxy hyx2.symm
          omega
        rw [hpL]
        simp only [hcy]
      · have hxcne : x ≠ c := fun he => hxc ((strcmp_eq_iff x c).2 he)
        have hchain2 : List.Chain' sle (c :: r) := (List.chain'_cons.1 hchain).2
        have hslexc : sle x c := (List.chain'_cons.1 hchain).1
        have hsltxc : slt x c := slt_of_sle_of_ne hslexc hxcne
        have hnotmem : x ∉ c :: r := not_mem_of_slt_chain' hsltxc hchain2
        show dedupLoop x (c :: r) false = _
        rw [show dedupLoop x (c :: r) false = x :: dedupLoop c r false from by
              simp [dedupLoop, hxc]]
        have hIH : dedupVals (c :: r) = (c :: r).filter (fun y => ((c :: r).count y == 1)) := by
          refine ih (c :: r) ?_ hchain2
          simp only [List.length_cons] at hl ⊢
          omega
        rw [show dedupLoop c r false = dedupVals (c :: r) from rfl, hIH]
        have hpx : ((x :: c :: r).count x == 1) = true := by
          have h1 : (x :: c :: r).count x = (c :: r).count x + 1 := List.count_cons_self x _
          have h2 : (c :: r).count x = 0 := List.count_eq_zero.2 hnotmem
          simp [h1, h2]
        rw [show ((x :: c :: r).filter fun y => ((x :: c :: r).count y == 1)) =
              x :: ((c :: r).filter fun y => ((x :: c :: r).count y == 1)) from
            List.filter_cons_of_pos hpx]
        refine congrArg (x :: ·) ?_
        refine List.filter_congr (fun y hy => ?_)
        have hxy : slt x y := by
          rcases List.mem_cons.1 hy with rfl | hy2
          · exact hsltxc
          · exact slt_sle_trans hsltxc (chain'_sle_head hchain2 y hy2)
        have hyx : (y == x) = false := by
          simpa using fun he => slt_ne hxy he.symm
        simp [List.count_cons, hyx, slt_ne hxy]

/-- C3: under the stated precondition (value sequence sorted ascending),
`q_delete_dup` returns true and keeps exactly the elements whose value
occurs once, deleting every member of a run of two or more equal values;
it returns false on an absent handle, is a no-op success on an empty list,
and on ["a","a","b","b","c"] the survivors are ["c"]. -/
theorem q_delete_dup_keeps_unique_values :
    (∀ l : List Val, sortedVals l →
        q_delete_dup (some l) = (true, some (l.filter fun x => (l.count x == 1)))) ∧
      q_delete_dup none = (false, none) ∧
      q_delete_dup (some ([] : List Val)) = (true, some []) ∧
      q_delete_dup (some [[97], [97], [98], [98], [99]]) = (true, some [[99]]) := by
  refine ⟨?_, rfl, rfl, by decide⟩
  intro l hs
  have h1 : q_delete_dup (some l) = (true, some (dedupVals l)) := by
    cases l <;> rfl
  rw [h1, dedupVals_spec l.length l le_rfl hs]

/-- Witness for C3 on the sorted list ["a","a","b","b","c"]. -/
theorem q_delete_dup_keeps_unique_values_witness :
    q_delete_dup (some [[97], [97], [98], [98], [99]]) =
      (true, some (([[97], [97], [98], [98], [99]] : List Val).filter
        fun x => (([[97], [97], [98], [98], [99]] : List Val).count x == 1))) := by
  refine q_delete_dup_keeps_unique_values.1 _ ?_
  simp only [sortedVals, List.chain'_cons, List.chain'_singleton]
  refine ⟨?_, ?_, ?_, ?_⟩ <;> decide

/-! ## Run production of the merge sort stack phase -/

theorem chain'_ne_getD {seg : List Val}
    (h : List.Chain' (fun a b : Val => a ≠ b) seg) {s : Nat} (hs : s + 1 < seg.length) :
    seg.getD s [] ≠ seg.getD (s + 1) [] := by
  have h1 := List.chain'_iff_get.1 h s (by omega)
  rw [List.getD_eq_get seg [] (by omega), List.getD_eq_get seg [] hs]
  exact h1

theorem scanSlow_bound {seg : List Val}
    (hch : List.Chain' (fun a b : Val => a ≠ b) seg) :
    ∀ (fuel s f : Nat), s < f → s + 2 ≤ seg.length →
      scanSlow fuel seg s f + 2 ≤ seg.length := by
  intro fuel
  induction fuel with
  | zero =>
    intro s f _ h2
    exact h2
  | succ fuel ih =>
    intro s f h1 h2
    show (if f + 1 < seg.length then
            if strcmp (seg.getD s []) (seg.getD (s + 1) []) = .eq then
              extendRun seg.length seg s
            else scanSlow fuel seg (s + 1) (f + 2)
          else s) + 2 ≤ seg.length
    by_cases hf : f + 1 < seg.length
    · rw [if_pos hf]
      have hne : seg.getD s [] ≠ seg.getD (s + 1) [] := chain'_ne_getD hch (by omega)
      rw [if_neg (fun he => hne ((strcmp_eq_iff _ _).1 he))]
      exact ih (s + 1) (f + 2) (by omega) (by omega)
    · rw [if_neg hf]
      exact h2

theorem msLeaves_count : ∀ (n : Nat) (seg : List Val),
    List.Chain' (fun a b : Val => a ≠ b) seg → seg ≠ [] → seg.length ≤ n →
    (msLeaves n seg).length = seg.length := by
  intro n
  induction n with
  | zero =>
    intro seg _ hne hlen
    cases seg with
    | nil => exact absurd rfl hne
    | cons x xs => simp at hlen
  | succ n ih =>
    intro seg hch hne hlen
    match seg, hne with
    | [x], _ => simp [msLeaves, scanSlow]
    | x :: y :: rest, _ =>
      have hge : 2 ≤ (x :: y :: rest).length := by simp
      have hm2 := scanSlow_bound hch ((x :: y :: rest).length) 0 1 (by omega) hge
      set seg' := x :: y :: rest with hseg
      set m := scanSlow seg'.length seg' 0 1 with hmdef
      have hunfold : msLeaves (n + 1) seg' =
          if seg'.drop (m + 1) = [] then [seg'.take (m + 1)]
          else msLeaves n (seg'.drop (m + 1)) ++ msLeaves n (seg'.take (m + 1)) := rfl
      have hdl : (seg'.drop (m + 1)).length = seg'.length - (m + 1) := List.length_drop _ _
      have htl : (seg'.take (m + 1)).length = m + 1 := by
        rw [List.length_take]
        omega
      have hr : seg'.drop (m + 1) ≠ [] := by
        intro he
        rw [he] at hdl
        simp at hdl
        omega
      have ht : seg'.take (m + 1) ≠ [] := by
        intro he
        rw [he] at htl
        simp at htl
      rw [hunfold, if_neg hr, List.length_append]
      rw [ih (seg'.drop (m + 1)) (hch.drop _) hr (by omega)]
      rw [ih (seg'.take (m + 1)) (hch.take _) ht (by omega)]
      omega

/-- C6: the spec requires the sort never to run out of room in its work
stack and ready-run array for any list length.  The code declares the run
array with 100000 slots, but on any list of distinct adjacent values every
element becomes its own run: the run count equals the list length, so a
list of 100001 distinct values makes the stack phase perform the write
`lists[100000]`, one past the last slot of `struct list_head *lists[100000]`. -/
theorem mergesort_run_array_exceeds_capacity :
    (∀ l : List Val, List.Chain' (fun a b : Val => a ≠ b) l → l ≠ [] →
        (msLeaves l.length l).length = l.length) ∧
      (msLeaves ((List.range 100001).map fun i => [i]).length
          ((List.range 100001).map fun i => [i])).length = 100001 ∧
      100000 <
        (msLeaves ((List.range 100001).map fun i => [i]).length
            ((List.range 100001).map fun i => [i])).length := by
  have hmain : ∀ l : List Val, List.Chain' (fun a b : Val => a ≠ b) l → l ≠ [] →
      (msLeaves l.length l).length = l.length :=
    fun l hc hn => msLeaves_count l.length l hc hn le_rfl
  have hchainGen : ∀ n : Nat,
      List.Chain' (fun a b : Val => a ≠ b) ((List.range n).map fun i => [i]) := by
    intro n
    rw [List.chain'_map]
    refine List.chain'_iff_get.2 (fun i h => ?_)
    rw [List.get_range, List.get_range]
    simp
  have hgen : ∀ n : Nat, 0 < n →
      (msLeaves ((List.range n).map fun i => [i]).length
          ((List.range n).map fun i => [i])).length = n := by
    intro n hn
    have hne : ((List.range n).map fun i => [i]) ≠ [] := by
      intro he
      have h2 := congrArg List.length he
      simp only [List.length_map, List.length_range, List.length_nil] at h2
      omega
    rw [hmain _ (hchainGen n) hne]
    simp
  refine ⟨hmain, hgen 100001 (by norm_num), ?_⟩
  rw [hgen 100001 (by norm_num)]
  norm_num

/-- Witness for C6: on the two-element distinct list ["1","2"] the stack
phase produces exactly two runs. -/
theorem mergesort_run_array_exceeds_capacity_witness :
    (msLeaves ([[1], [2]] : List Val).length [[1], [2]]).length =
      ([[1], [2]] : List Val).length :=
  mergesort_run_array_exceeds_capacity.1 [[1], [2]]
    (List.chain'_cons.2 ⟨by decide, List.chain'_singleton _⟩) (by decide)

end Lab0
